import Mathlib

/-!
Shallow embedding of the NLPMed-Engine preprocessing pipeline
(nlpmed_engine: data structures, components and pipeline engine)
and proofs about its behaviour.

Strings are modelled as `List Char` (Python strings, indexed by code
points).  Python `None` becomes `Option`, exceptions become `Except`,
and in-place mutation of the dataclasses becomes functional update.
-/

set_option autoImplicit false

namespace NLPMed

/-! ### Character helpers

`isAsciiAlnum` embeds the regex character class `[a-zA-Z0-9]` used by the
word-boundary lookarounds in `word_masker.py`, `note_filter.py`,
`sentence_filter.py` and `section_filter.py`.

`pyIsSpace` embeds Python's whitespace test for the ASCII range
(space, tab, newline, vertical tab, form feed, carriage return), as used
by `str.strip` and `str.split`.
-/

def isAsciiAlnum (c : Char) : Bool :=
  let n := c.toNat
  (97 ≤ n && n ≤ 122) || (65 ≤ n && n ≤ 90) || (48 ≤ n && n ≤ 57)

def pyIsSpace (c : Char) : Bool :=
  let n := c.toNat
  n == 32 || (9 ≤ n && n ≤ 13)

/-- Python `str.strip()` restricted to ASCII whitespace. -/
def pyStrip (t : List Char) : List Char :=
  ((t.dropWhile pyIsSpace).reverse.dropWhile pyIsSpace).reverse

/-- Python slice `t[a:b]` for `0 ≤ a ≤ b ≤ len t`. -/
def pySlice (t : List Char) (a b : Nat) : List Char :=
  (t.drop a).take (b - a)

/-- Case-insensitive prefix test (re.IGNORECASE on a literal word;
`Char.toLower` lowers exactly the ASCII uppercase letters). -/
def isPrefixCI (w t : List Char) : Bool :=
  (w.map Char.toLower).isPrefixOf (t.map Char.toLower)

/-- The lookbehind `(?<![a-zA-Z0-9])` at a position whose preceding
character is `prev` (`none` at the start of the text). -/
def boundaryBefore (prev : Option Char) : Bool :=
  match prev with
  | none => true
  | some c => !isAsciiAlnum c

/-- The lookahead `(?![a-zA-Z0-9])` when the rest of the text after the
matched word is `rest`. -/
def boundaryAfterOk (rest : List Char) : Bool :=
  match rest with
  | [] => true
  | c :: _ => !isAsciiAlnum c

/-- Does the alternation word `w` match at the current position of `t`
(with lookbehind on `prev` and trailing lookahead), case-insensitively?
This is one alternative of `(?<![a-zA-Z0-9])(w1|w2|…)(?![a-zA-Z0-9])`. -/
def matchWordAt (prev : Option Char) (t w : List Char) : Bool :=
  boundaryBefore prev && isPrefixCI w t && boundaryAfterOk (t.drop w.length)

/-! ### Data structures (`nlpmed_engine/data_structures`) -/

structure Sentence where
  text : List Char
  start_index : Nat
  end_index : Nat
  is_duplicate : Bool := false
  is_important : Bool := false
  is_expanded : Bool := false
deriving DecidableEq

structure Section where
  text : List Char
  start_index : Nat
  end_index : Nat
  sentences : List Sentence := []
  important_indices : List Nat := []
  duplicate_indices : List Nat := []
  expanded_indices : List Nat := []
  is_important : Bool := false
deriving DecidableEq

structure Note where
  text : List Char
  sections : List Section := []
  preprocessed_text : Option (List Char) := none
  predicted_label : Option (List Char) := none
  predicted_score : Option ℚ := none
  note_id : Option (List Char) := none
deriving DecidableEq

structure Patient where
  patient_id : List Char
  notes : List Note
deriving DecidableEq

/-! ### `utils.get_effective_param` (`nlpmed_engine/utils/utils.py`)

Python's `None` sentinel becomes `Option`; the raised `ValueError`
becomes the `Except.error` constructor carrying the message.
-/

def get_effective_param {α : Type} (instance_value provided_value : Option α)
    (required : Bool) : Except (List Char) (Option α) :=
  match provided_value with
  | some v => .ok (some v)
  | none =>
    match instance_value with
    | some v => .ok (some v)
    | none =>
      if required then .error ("A value must be provided.".toList)
      else .ok none

/-! ### Configuration dictionaries (`nlpmed_engine/pipelines/base_pipeline.py`)

Stage settings are Python dicts; we model them as association lists.
`dictGet` is `settings[key]` (raising `KeyError`), `dictGetD` is
`settings.get(key, default)`.
-/

inductive ConfigVal where
  | str (v : List Char)
  | strList (v : List (List Char))
  | boolVal (v : Bool)
  | natVal (v : Nat)
deriving DecidableEq

abbrev Settings := List (List Char × ConfigVal)

def lookupKey (settings : Settings) (k : List Char) : Option ConfigVal :=
  (settings.find? (fun p => p.1 == k)).map (·.2)

def dictGet (settings : Settings) (k : List Char) : Except (List Char) ConfigVal :=
  match lookupKey settings k with
  | some v => .ok v
  | none => .error ("KeyError: ".toList ++ k)

def dictGetD (settings : Settings) (k : List Char) (d : ConfigVal) : ConfigVal :=
  (lookupKey settings k).getD d

/-- The `PatternReplacer` constructor state (`pattern_replacer.py`):
it stores the `patterns` and `target` arguments unchanged. -/
structure PatternReplacer where
  patterns : ConfigVal
  target : ConfigVal
deriving DecidableEq

/-- `BasePipeline._init_pattern_replacer` (base_pipeline.py lines 79-83):
`PatternReplacer(patterns=settings["patterns"], target=settings.get("target", "\n\n"))`.
The subscript access raises `KeyError` when the key is absent. -/
def init_pattern_replacer (settings : Settings) : Except (List Char) PatternReplacer :=
  (dictGet settings ("patterns".toList)).map (fun p =>
    { patterns := p, target := dictGetD settings ("target".toList) (ConfigVal.str "\n\n".toList) })

/-- A pattern_replacer settings dict holding exactly the documented option
keys `status`, `pattern`, `target` (the spec's config-override schema and
`build_initial_config` in utils.py both use the singular key `pattern`). -/
def patternReplacerDocSettings : Settings :=
  [("status".toList, ConfigVal.str ("enabled".toList)),
   ("pattern".toList, ConfigVal.str ("\\s+".toList)),
   ("target".toList, ConfigVal.str ("\n\n".toList))]

/-! ### Claim theorems (first group) -/

/-- C4: stage parameter resolution (`get_effective_param`): a provided
(call-time) value wins; otherwise the instance default is used when
present; when both are absent and the parameter is required, resolution
fails with exactly the message "A value must be provided.". -/
theorem c4_get_effective_param_resolution {α : Type} :
    (∀ (instance_value : Option α) (v : α) (required : Bool),
       get_effective_param instance_value (some v) required = .ok (some v)) ∧
    (∀ (v : α) (required : Bool),
       get_effective_param (some v) none required = .ok (some v)) ∧
    get_effective_param (none : Option α) none true
      = .error ("A value must be provided.".toList) :=
  ⟨fun _ _ _ => rfl, fun _ _ => rfl, rfl⟩

/-- C3: constructing the pipeline with a pattern_replacer settings dict
holding exactly the documented keys `status`, `pattern`, `target` does
NOT succeed: `_init_pattern_replacer` reads `settings["patterns"]`
(plural), so the documented configuration raises `KeyError: patterns`
instead of instantiating the stage. -/
theorem c3_init_pattern_replacer_fails_on_documented_keys :
    init_pattern_replacer patternReplacerDocSettings
      = .error ("KeyError: patterns".toList) := by
  rfl

/-! ### WordMasker (`nlpmed_engine/components/word_masker.py`)

`regex.sub` over the pattern `(?<![a-zA-Z0-9])(w1|w2|…)(?![a-zA-Z0-9])`
with replacement `mask_char * len(match)`.  The scan walks the original
text left to right; at each position the first alternative (in list
order) that matches, with both boundary lookarounds, is replaced and the
scan resumes after it; otherwise the character is copied.  `fuel` is an
upper bound on the number of scan steps: each step consumes at least one
character, so `fuel = t.length` makes the out-of-fuel branch unreachable.
-/

def maskRepl (mc : List Char) (n : Nat) : List Char :=
  (List.replicate n mc).flatten

def findMaskWord (ws : List (List Char)) (prev : Option Char) (t : List Char) :
    Option (List Char) :=
  ws.find? (fun w => matchWordAt prev t w)

def maskScan (ws : List (List Char)) (mc : List Char) :
    Nat → Option Char → List Char → List Char
  | 0, _, t => t
  | _ + 1, _, [] => []
  | fuel + 1, prev, c :: rest =>
    match findMaskWord ws prev (c :: rest) with
    | some w =>
      if w.length = 0 then
        c :: maskScan ws mc fuel (some c) rest
      else
        maskRepl mc w.length
          ++ maskScan ws mc fuel ((c :: rest).get? (w.length - 1)) ((c :: rest).drop w.length)
    | none => c :: maskScan ws mc fuel (some c) rest

/-- `WordMasker.process`: rewrites `note.text` by the masking
substitution; nothing else on the note changes. -/
def wordMaskerProcess (words_to_mask : List (List Char)) (mask_char : List Char)
    (note : Note) : Note :=
  { note with text := maskScan words_to_mask mask_char note.text.length none note.text }

theorem maskRepl_length (mc : List Char) (n : Nat) :
    (maskRepl mc n).length = n * mc.length := by
  simp [maskRepl, List.length_flatten, List.map_replicate, List.sum_replicate, smul_eq_mul]

theorem isPrefixCI_length_le {w t : List Char} (h : isPrefixCI w t = true) :
    w.length ≤ t.length := by
  unfold isPrefixCI at h
  rw [List.isPrefixOf_iff_prefix] at h
  have := h.length_le
  simpa using this

theorem findMaskWord_length_le {ws : List (List Char)} {prev : Option Char}
    {t w : List Char} (h : findMaskWord ws prev t = some w) :
    w.length ≤ t.length := by
  have hm := List.find?_some h
  simp only [matchWordAt, Bool.and_eq_true] at hm
  exact isPrefixCI_length_le hm.1.2

theorem maskScan_length (ws : List (List Char)) (mc : List Char)
    (hmc : mc.length = 1) :
    ∀ (fuel : Nat) (prev : Option Char) (t : List Char),
      (maskScan ws mc fuel prev t).length = t.length := by
  intro fuel
  induction fuel with
  | zero => intro prev t; rfl
  | succ fuel ih =>
    intro prev t
    match t with
    | [] => rfl
    | c :: rest =>
      rw [maskScan]
      cases hfind : findMaskWord ws prev (c :: rest) with
      | none => simp [ih]
      | some w =>
        by_cases hw : w.length = 0
        · simp [hw, ih]
        · have hle : w.length ≤ (c :: rest).length := findMaskWord_length_le hfind
          simp only [hw, if_false, List.length_append, maskRepl_length, hmc,
            Nat.mul_one, ih, List.length_drop]
          omega

/-- A note used to evaluate WordMasker at concrete inputs. -/
def c7Note : Note := { text := "PE".toList }

/-- C7 counterexample: `mask_char` is an arbitrary string in the code;
with `mask_char = "##"` and `words_to_mask = ["PE"]`, masking the note
"PE" produces "####", so `len(note.text)` changes (4 ≠ 2) and the claim
as stated (quantified over every `mask_char`) is false. -/
theorem c7_counterexample :
    (wordMaskerProcess ["PE".toList] ("##".toList) c7Note).text.length
      ≠ c7Note.text.length := by
  decide

/-- C7 (amended): for every note, every `words_to_mask` list, and every
single-character `mask_char`, WordMasker preserves the length of
`note.text` (the replacement `mask_char * len(match)` has the match's
length exactly when `mask_char` has length 1). -/
theorem c7_word_masker_length (ws : List (List Char)) (mc : List Char)
    (note : Note) (hmc : mc.length = 1) :
    (wordMaskerProcess ws mc note).text.length = note.text.length := by
  unfold wordMaskerProcess
  exact maskScan_length ws mc hmc note.text.length none note.text

/-- Witness for the amended C7 at a concrete input: masking "PE" in the
note "PE" with the one-character mask "*". -/
theorem c7_word_masker_length_witness :
    ("*".toList).length = 1 ∧
    (wordMaskerProcess ["PE".toList] ("*".toList) c7Note).text.length
      = c7Note.text.length :=
  ⟨by decide, c7_word_masker_length ["PE".toList] ("*".toList) c7Note (by decide)⟩

/-! ### NoteFilter (`nlpmed_engine/components/note_filter.py`) and the
SinglePipeline note loop (`nlpmed_engine/pipelines/single_pipeline.py`)

`wwSearch` is `regex.search` for the case-insensitive whole-word
alternation; `note_filter_process` returns `none` ("drop") when no term
matches.  `runNoteStages` embeds the per-note stage loop of
`SinglePipeline.process`: a `none` result sets `preprocessed_text = ""`
and breaks out of the stage loop for that note.
-/

def wwSearchAux (ws : List (List Char)) : Option Char → List Char → Bool
  | prev, [] => ws.any (fun w => matchWordAt prev [] w)
  | prev, c :: rest =>
    ws.any (fun w => matchWordAt prev (c :: rest) w) || wwSearchAux ws (some c) rest

def wwSearch (ws : List (List Char)) (t : List Char) : Bool :=
  wwSearchAux ws none t

def note_filter_process (words_to_search : List (List Char)) (note : Note) :
    Option Note :=
  if wwSearch words_to_search note.text then some note else none

/-- A pipeline stage as seen by the `SinglePipeline` note loop: it
returns the processed note, or `none` to signal a drop. -/
def Stage : Type := Note → Option Note

/-- The inner stage loop of `SinglePipeline.process` for one note. -/
def runNoteStages : List Stage → Note → Note
  | [], note => note
  | f :: fs, note =>
    match f note with
    | none => { note with preprocessed_text := some [] }
    | some n => runNoteStages fs n

/-- `SinglePipeline.process`: every note of the patient runs through the
stage loop, in input order. -/
def singlePipelineProcess (stages : List Stage) (patient : Patient) : Patient :=
  { patient with notes := patient.notes.map (runNoteStages stages) }

/-- Stages 1-3 (EncodingFixer, PatternReplacer, WordMasker) only rewrite
`note.text` and never signal a drop; this lifts such a text rewrite to a
pipeline stage. -/
def liftTextStage (g : List Char → List Char) : Stage :=
  fun note => some { note with text := g note.text }

def noteFilterStage (ws : List (List Char)) : Stage :=
  note_filter_process ws

def applyTextStages (gs : List (List Char → List Char)) (t : List Char) : List Char :=
  gs.foldl (fun acc g => g acc) t

/-- C5: in `SinglePipeline.process`, a note whose text (after the
text-rewriting stages that precede NoteFilter) contains no
case-insensitive whole-word occurrence of any term of the enabled
NoteFilter gets `preprocessed_text = ""` and no later stage runs on it:
its sections stay empty and `predicted_label`/`predicted_score` stay
unset; and the pipeline still maps every note of the patient through the
stage loop in input order. -/
theorem c5_note_filter_drop (pres : List (List Char → List Char))
    (ws : List (List Char)) (posts : List Stage) (note : Note)
    (hsec : note.sections = []) (hpre : note.preprocessed_text = none)
    (hlabel : note.predicted_label = none) (hscore : note.predicted_score = none)
    (hmatch : wwSearch ws (applyTextStages pres note.text) = false) :
    (runNoteStages (pres.map liftTextStage ++ noteFilterStage ws :: posts) note
      = { text := applyTextStages pres note.text, sections := [],
          preprocessed_text := some [], predicted_label := none,
          predicted_score := none, note_id := note.note_id }) ∧
    ∀ (patient : Patient),
      (singlePipelineProcess (pres.map liftTextStage ++ noteFilterStage ws :: posts)
          patient).notes
        = patient.notes.map
            (runNoteStages (pres.map liftTextStage ++ noteFilterStage ws :: posts)) := by
  refine ⟨?_, fun _ => rfl⟩
  induction pres generalizing note with
  | nil =>
    simp only [applyTextStages, List.foldl_nil] at hmatch ⊢
    simp only [List.map_nil, List.nil_append, runNoteStages, noteFilterStage,
      note_filter_process, hmatch, if_false]
    cases note
    simp_all
  | cons g gs ih =>
    simp only [List.map_cons, List.cons_append, runNoteStages, liftTextStage]
    have := ih { note with text := g note.text } hsec hpre hlabel hscore
      (by simpa [applyTextStages] using hmatch)
    simpa [applyTextStages] using this

/-- Witness for C5 at concrete input: the note "Nothing relevant here."
with search terms DVT and PE, no pre-stages and no post-stages. -/
theorem c5_note_filter_drop_witness :
    (wwSearch ["DVT".toList, "PE".toList]
        (applyTextStages [] ("Nothing relevant here.".toList)) = false) ∧
    runNoteStages
        (([] : List (List Char → List Char)).map liftTextStage
          ++ noteFilterStage ["DVT".toList, "PE".toList] :: [])
        { text := "Nothing relevant here.".toList }
      = { text := applyTextStages [] ("Nothing relevant here.".toList), sections := [],
          preprocessed_text := some [], predicted_label := none,
          predicted_score := none, note_id := none } :=
  ⟨by decide,
   (c5_note_filter_drop [] ["DVT".toList, "PE".toList] []
      { text := "Nothing relevant here.".toList } rfl rfl rfl rfl (by decide)).1⟩

/-! ### SectionSplitter (`nlpmed_engine/components/section_splitter.py`)

`note.text.split(delimiter)` is Python's plain (non-regex) split:
repeatedly find the leftmost occurrence of the delimiter, cut, and
continue after it.  `findSub t d` is the index of the leftmost
occurrence of `d` in `t` (Python `t.find(d)`).  `splitOnFuel` consumes
at least one character per step, so `fuel = t.length` makes the
out-of-fuel branch unreachable for a non-empty delimiter (Python
rejects an empty separator).
-/

def findSub (t d : List Char) : Option Nat :=
  match t with
  | [] => if d.isEmpty then some 0 else none
  | c :: rest =>
    if d.isPrefixOf (c :: rest) then some 0
    else (findSub rest d).map (· + 1)

def splitOnFuel (d : List Char) : Nat → List Char → List (List Char)
  | 0, t => [t]
  | fuel + 1, t =>
    match findSub t d with
    | none => [t]
    | some i => t.take i :: splitOnFuel d fuel (t.drop (i + d.length))

def splitOnL (t d : List Char) : List (List Char) :=
  splitOnFuel d t.length t

/-- `delimiter.join(pieces)` (used only in the statements: its inverse
relationship with `splitOnL` is what the splitter guarantees). -/
def joinWith : List (List Char) → List Char → List Char
  | [], _ => []
  | [p], _ => p
  | p :: q :: rest, d => p ++ d ++ joinWith (q :: rest) d

/-- The loop body of `SectionSplitter.process`: one Section per piece,
with the running start index advancing by piece length plus delimiter
length after each piece. -/
def buildSections (pieces : List (List Char)) (dlen : Nat) (start : Nat) :
    List Section :=
  match pieces with
  | [] => []
  | p :: rest =>
    { text := p, start_index := start, end_index := start + p.length }
      :: buildSections rest dlen (start + p.length + dlen)

/-- `SectionSplitter.process`: a no-op when `note.text.strip()` is
empty, otherwise appends one Section per split piece to `note.sections`
(empty before stage 5 populates it). -/
def sectionSplitterProcess (delimiter : List Char) (note : Note) : Note :=
  if (pyStrip note.text).isEmpty then note
  else
    { note with
      sections := note.sections
        ++ buildSections (splitOnL note.text delimiter) delimiter.length 0 }

theorem findSub_decomp :
    ∀ {t d : List Char} {i : Nat}, findSub t d = some i →
      t.drop i = d ++ t.drop (i + d.length) := by
  intro t
  induction t with
  | nil =>
    intro d i h
    unfold findSub at h
    by_cases hd : d.isEmpty
    · have : d = [] := by cases d <;> simp_all
      simp only [hd, if_true] at h
      cases h
      simp [this]
    · simp [hd] at h
  | cons c rest ih =>
    intro d i h
    unfold findSub at h
    by_cases hp : d.isPrefixOf (c :: rest)
    · rw [if_pos hp] at h
      cases h
      rw [List.isPrefixOf_iff_prefix] at hp
      rcases hp with ⟨s, hs⟩
      have hdrop : (c :: rest).drop d.length = s := by
        rw [← hs, List.drop_left]
      simp [hdrop, ← hs]
    · rw [if_neg hp] at h
      cases hfr : findSub rest d with
      | none => rw [hfr] at h; simp at h
      | some j =>
        rw [hfr] at h
        have hji : j + 1 = i := by simpa using h
        subst hji
        have := ih hfr
        simpa [Nat.succ_add] using this

theorem splitOnFuel_ne_nil (d : List Char) (fuel : Nat) (t : List Char) :
    splitOnFuel d fuel t ≠ [] := by
  cases fuel with
  | zero => simp [splitOnFuel]
  | succ n =>
    unfold splitOnFuel
    cases findSub t d <;> simp

theorem joinWith_cons_of_ne_nil {ps : List (List Char)} (h : ps ≠ [])
    (p : List Char) (d : List Char) :
    joinWith (p :: ps) d = p ++ d ++ joinWith ps d := by
  cases ps with
  | nil => exact absurd rfl h
  | cons q rest => rfl

theorem joinWith_splitOnFuel (d : List Char) :
    ∀ (fuel : Nat) (t : List Char), joinWith (splitOnFuel d fuel t) d = t := by
  intro fuel
  induction fuel with
  | zero => intro t; rfl
  | succ n ih =>
    intro t
    unfold splitOnFuel
    cases hf : findSub t d with
    | none => rfl
    | some i =>
      rw [joinWith_cons_of_ne_nil (splitOnFuel_ne_nil d n _)]
      rw [ih]
      have hdec := findSub_decomp hf
      calc t.take i ++ d ++ t.drop (i + d.length)
          = t.take i ++ (d ++ t.drop (i + d.length)) := by rw [List.append_assoc]
        _ = t.take i ++ t.drop i := by rw [← hdec]
        _ = t := List.take_append_drop i t

theorem joinWith_splitOnL (t d : List Char) :
    joinWith (splitOnL t d) d = t :=
  joinWith_splitOnFuel d t.length t

theorem buildSections_map_text :
    ∀ (pieces : List (List Char)) (dlen start : Nat),
      (buildSections pieces dlen start).map Section.text = pieces := by
  intro pieces
  induction pieces with
  | nil => intro dlen start; rfl
  | cons p rest ih => intro dlen start; simp [buildSections, ih]

theorem buildSections_chain :
    ∀ (pieces : List (List Char)) (dlen start : Nat),
      List.Chain' (fun a b => b.start_index = a.end_index + dlen)
        (buildSections pieces dlen start) := by
  intro pieces
  induction pieces with
  | nil => intro dlen start; simp [buildSections]
  | cons p rest ih =>
    intro dlen start
    rw [buildSections, List.chain'_cons']
    refine ⟨?_, ih dlen _⟩
    intro y hy
    cases rest with
    | nil => simp [buildSections] at hy
    | cons q rest' =>
      simp only [buildSections, List.head?_cons, Option.mem_def,
        Option.some.injEq] at hy
      subst hy
      rfl

theorem buildSections_slice :
    ∀ (pieces : List (List Char)) (start : Nat) (t d : List Char),
      t.drop start = joinWith pieces d →
      ∀ S ∈ buildSections pieces d.length start,
        pySlice t S.start_index S.end_index = S.text ∧
        S.end_index = S.start_index + S.text.length := by
  intro pieces
  induction pieces with
  | nil => intro start t d _ S hS; simp [buildSections] at hS
  | cons p rest ih =>
    intro start t d hdrop S hS
    rw [buildSections, List.mem_cons] at hS
    rcases hS with hS | hS
    · subst hS
      refine ⟨?_, rfl⟩
      simp only [pySlice, Nat.add_sub_cancel_left]
      cases rest with
      | nil =>
        have : t.drop start = p := hdrop
        rw [this]
        exact List.take_length p
      | cons q rest' =>
        rw [joinWith_cons_of_ne_nil (by simp)] at hdrop
        rw [hdrop, List.append_assoc, List.take_left]
    · cases rest with
      | nil => simp [buildSections] at hS
      | cons q rest' =>
        rw [joinWith_cons_of_ne_nil (by simp)] at hdrop
        refine ih (start + p.length + d.length) t d ?_ S hS
        have h1 : t.drop (start + p.length + d.length)
            = ((t.drop start).drop p.length).drop d.length := by
          rw [List.drop_drop, List.drop_drop]
          ring_nf
        rw [h1, hdrop, List.append_assoc, List.drop_left]
        rw [List.drop_left]

/-- C6: for a note with non-blank text and empty sections and a
non-empty delimiter, every Section produced by SectionSplitter satisfies
`note.text[S.start_index:S.end_index] == S.text`, the sections appear in
order of occurrence (their texts are exactly the split pieces in order),
and each section's start index is the previous section's end index plus
the delimiter length. -/
theorem c6_section_splitter_offsets (note : Note) (d : List Char)
    (hd : d ≠ []) (hsec : note.sections = [])
    (hws : (pyStrip note.text).isEmpty = false) :
    (∀ S ∈ (sectionSplitterProcess d note).sections,
        pySlice note.text S.start_index S.end_index = S.text ∧
        S.end_index = S.start_index + S.text.length) ∧
    ((sectionSplitterProcess d note).sections.map Section.text
        = splitOnL note.text d) ∧
    List.Chain' (fun a b => b.start_index = a.end_index + d.length)
      (sectionSplitterProcess d note).sections := by
  have hout : (sectionSplitterProcess d note).sections
      = buildSections (splitOnL note.text d) d.length 0 := by
    unfold sectionSplitterProcess
    rw [if_neg (by simp [hws]), hsec]
    rfl
  refine ⟨?_, ?_, ?_⟩
  · rw [hout]
    exact buildSections_slice (splitOnL note.text d) 0 note.text d
      (by simpa using (joinWith_splitOnL note.text d).symm)
  · rw [hout, buildSections_map_text]
  · rw [hout]
    exact buildSections_chain (splitOnL note.text d) d.length 0

/-- Witness for C6: splitting "ab\n\ncd" on the delimiter "\n\n". -/
theorem c6_section_splitter_offsets_witness :
    ("\n\n".toList ≠ ([] : List Char)) ∧
    (∀ S ∈ (sectionSplitterProcess ("\n\n".toList)
        { text := "ab\n\ncd".toList }).sections,
        pySlice ("ab\n\ncd".toList) S.start_index S.end_index = S.text ∧
        S.end_index = S.start_index + S.text.length) := by
  refine ⟨by decide, ?_⟩
  exact (c6_section_splitter_offsets { text := "ab\n\ncd".toList } ("\n\n".toList)
    (by decide) rfl (by decide)).1

/-- C10: under the same conditions, joining the produced sections' texts
with the delimiter reconstructs `note.text` exactly, and the stage
leaves `note.text` unchanged. -/
theorem c10_section_splitter_reconstruction (note : Note) (d : List Char)
    (hd : d ≠ []) (hsec : note.sections = [])
    (hws : (pyStrip note.text).isEmpty = false) :
    joinWith ((sectionSplitterProcess d note).sections.map Section.text) d
      = note.text ∧
    (sectionSplitterProcess d note).text = note.text := by
  have hout : (sectionSplitterProcess d note).sections
      = buildSections (splitOnL note.text d) d.length 0 := by
    unfold sectionSplitterProcess
    rw [if_neg (by simp [hws]), hsec]
    rfl
  constructor
  · rw [hout, buildSections_map_text]
    exact joinWith_splitOnL note.text d
  · unfold sectionSplitterProcess
    rw [if_neg (by simp [hws])]

/-- Witness for C10: splitting "x\n\nyz\n\n" on "\n\n" and joining the
section texts back. -/
theorem c10_section_splitter_reconstruction_witness :
    ("\n\n".toList ≠ ([] : List Char)) ∧
    joinWith ((sectionSplitterProcess ("\n\n".toList)
        { text := "x\n\nyz\n\n".toList }).sections.map Section.text)
      ("\n\n".toList) = "x\n\nyz\n\n".toList :=
  ⟨by decide,
   (c10_section_splitter_reconstruction { text := "x\n\nyz\n\n".toList }
      ("\n\n".toList) (by decide) rfl (by decide)).1⟩

/-! ### SectionFilter (`nlpmed_engine/components/section_filter.py`)

The inclusion regex `^(?<![a-zA-Z0-9])(?:kw1|kw2|…)(?![a-zA-Z0-9])` is
anchored at the start of the section text (where the lookbehind is
vacuous), case-insensitive, with a trailing boundary; the exclusion
regex is the same without the trailing boundary.  `re.match` anchors at
position 0.  A regex is compiled only when its keyword list is truthy
(non-empty); `incActive`/`excActive` model `inc_regex`/`exc_regex`
being not `None`.
-/

def incMatch (ws : List (List Char)) (t : List Char) : Bool :=
  ws.any (fun w => isPrefixCI w t && boundaryAfterOk (t.drop w.length))

def excMatch (ws : List (List Char)) (t : List Char) : Bool :=
  ws.any (fun w => isPrefixCI w t)

/-- The per-section loop of `SectionFilter.process` (lines 119-131):
threads `in_inclusion_block` through the sections, marking and keeping a
section when it is inside the block and the exclusion regex does not
match it. -/
def sectionFilterGo (inc exc : List (List Char)) :
    Bool → List Section → List Section
  | _, [] => []
  | in_inclusion_block, s :: rest =>
    let incActive := !inc.isEmpty
    let excActive := !exc.isEmpty
    let blk :=
      if incActive && incMatch inc s.text then true
      else if excActive && excMatch exc s.text && in_inclusion_block then false
      else in_inclusion_block
    let keep := blk && (!excActive || !excMatch exc s.text)
    if keep then
      { s with is_important := true } :: sectionFilterGo inc exc blk rest
    else
      sectionFilterGo inc exc blk rest

/-- `SectionFilter.process` (lines 119-141): run the state-machine pass;
if it kept nothing and fallback is set, mark every original section
important and keep them all, otherwise replace `note.sections` with the
kept sections. -/
def sectionFilterProcess (inc exc : List (List Char)) (fallback : Bool)
    (note : Note) : Note :=
  let filtered := sectionFilterGo inc exc false note.sections
  if filtered.isEmpty && fallback then
    { note with sections := note.sections.map (fun s => { s with is_important := true }) }
  else
    { note with sections := filtered }

/-- A section whose text matches both the inclusion and the exclusion
regex at its start (used to evaluate the tie-break behaviour). -/
def c1Section : Section :=
  { text := "Assessment: x".toList, start_index := 0, end_index := 13 }

def c1Note : Note :=
  { text := "Assessment: x".toList, sections := [c1Section] }

/-- C1 counterexample: with inclusion list ["Assessment"] and exclusion
list ["Assessment"], the single section "Assessment: x" matches both
regexes at its start; inclusion fires first (the block is entered), but
the keep condition `in_inclusion_block and not exc_regex.match(...)` is
false, so the section is NOT retained: with fallback false the output
sections are empty, refuting the claim that the doubly-matching section
is marked important and kept. -/
theorem c1_tiebreak_counterexample :
    incMatch ["Assessment".toList] c1Section.text = true ∧
    excMatch ["Assessment".toList] c1Section.text = true ∧
    (sectionFilterProcess ["Assessment".toList] ["Assessment".toList] false
        c1Note).sections = [] := by
  refine ⟨by decide, by decide, ?_⟩
  decide

/-- C1 (amended): when a section matches both the inclusion and the
exclusion regex on the same iteration, inclusion evaluates first —
`in_inclusion_block` becomes true and stays true for the following
sections — but the doubly-matching section itself is not kept and not
marked important: the pass continues on the remaining sections with the
block open, the section having been dropped. -/
theorem c1_tiebreak_inclusion_first (inc exc : List (List Char))
    (hinc : inc ≠ []) (hexc : exc ≠ []) (s : Section) (rest : List Section)
    (b : Bool) (hi : incMatch inc s.text = true) (he : excMatch exc s.text = true) :
    sectionFilterGo inc exc b (s :: rest) = sectionFilterGo inc exc true rest := by
  have hincA : inc.isEmpty = false := by cases inc <;> simp_all
  have hexcA : exc.isEmpty = false := by cases exc <;> simp_all
  conv_lhs => rw [sectionFilterGo]
  simp [hincA, hexcA, hi, he]

/-- Witness for the amended C1 at a concrete input: both lists
["Assessment"], the doubly-matching section followed by one more
section; the matching section is dropped and the block stays open. -/
theorem c1_tiebreak_inclusion_first_witness :
    incMatch ["Assessment".toList] c1Section.text = true ∧
    excMatch ["Assessment".toList] c1Section.text = true ∧
    sectionFilterGo ["Assessment".toList] ["Assessment".toList] false
        (c1Section :: [{ text := "Plan".toList, start_index := 15, end_index := 19 }])
      = sectionFilterGo ["Assessment".toList] ["Assessment".toList] true
          [{ text := "Plan".toList, start_index := 15, end_index := 19 }] :=
  ⟨by decide, by decide,
   c1_tiebreak_inclusion_first ["Assessment".toList] ["Assessment".toList]
     (by decide) (by decide) c1Section
     [{ text := "Plan".toList, start_index := 15, end_index := 19 }]
     false (by decide) (by decide)⟩

/-- C8: when the state-machine pass keeps no section, fallback true
marks every original section important while keeping them all in their
original order, and fallback false leaves the note with zero sections. -/
theorem c8_section_filter_fallback (note : Note) (inc exc : List (List Char))
    (h : sectionFilterGo inc exc false note.sections = []) :
    ((sectionFilterProcess inc exc true note).sections
        = note.sections.map (fun s => { s with is_important := true })) ∧
    (sectionFilterProcess inc exc false note).sections = [] := by
  constructor
  · unfold sectionFilterProcess
    rw [h]
    rfl
  · unfold sectionFilterProcess
    rw [h]
    rfl

/-- Witness for C8 at a concrete input: one section "Other" with
inclusion list ["Assessment"] and empty exclusion list keeps nothing. -/
theorem c8_section_filter_fallback_witness :
    (sectionFilterGo ["Assessment".toList] [] false
        [{ text := "Other".toList, start_index := 0, end_index := 5 }] = []) ∧
    (sectionFilterProcess ["Assessment".toList] [] true
        { text := "Other".toList,
          sections := [{ text := "Other".toList, start_index := 0, end_index := 5 }] }).sections
      = [{ text := "Other".toList, start_index := 0, end_index := 5,
           is_important := true }] := by
  constructor
  · decide
  · have := (c8_section_filter_fallback
      { text := "Other".toList,
        sections := [{ text := "Other".toList, start_index := 0, end_index := 5 }] }
      ["Assessment".toList] [] (by decide)).1
    rw [this]
    rfl

/-! ### SentenceExpander (`nlpmed_engine/components/sentence_expander.py`)

`expand_section_sentences` window loop: starting from `[idx, idx+1)`
with the sentence's own length, alternately extend left then right until
the accumulated length reaches the threshold or both boundaries of the
section are hit.  `fuel = sentences.length + 1` bounds the loop: every
iteration that neither returns nor breaks strictly decreases
`range_start + (length - range_end)`, which starts below the fuel.
`sentLen` reads `len(sentences[i].text)`; in the source an out-of-range
index raises, and the claims below assume valid indices.
-/

def sentLen (sentences : List Sentence) (i : Nat) : Nat :=
  match sentences.get? i with
  | some s => s.text.length
  | none => 0

def expandLoop (sentences : List Sentence) (thr : Nat) :
    Nat → Nat → Nat → Nat → Nat × Nat
  | 0, range_start, range_end, _ => (range_start, range_end)
  | fuel + 1, range_start, range_end, combined_len =>
    if thr ≤ combined_len then (range_start, range_end)
    else
      let p :=
        if 0 < range_start then
          (range_start - 1, combined_len + sentLen sentences (range_start - 1))
        else (range_start, combined_len)
      let q :=
        if p.2 < thr ∧ range_end < sentences.length then
          (range_end + 1, p.2 + sentLen sentences range_end)
        else (range_end, p.2)
      if p.1 = 0 ∧ q.1 = sentences.length then (p.1, q.1)
      else expandLoop sentences thr fuel p.1 q.1 q.2

/-- `SentenceExpander.expand_section_sentences`: for each important
index, either the index itself (when its sentence is long enough) or the
whole window `range(range_start, range_end)` is added to a set; the
result is the sorted enumeration of the set. -/
def expand_section_sentences (sentences : List Sentence)
    (important_indices : List Nat) (length_threshold : Nat) : List Nat :=
  let expanded : Finset ℕ := important_indices.foldl
    (fun acc idx =>
      if length_threshold ≤ sentLen sentences idx then insert idx acc
      else
        let r := expandLoop sentences length_threshold (sentences.length + 1)
          idx (idx + 1) (sentLen sentences idx)
        acc ∪ Finset.Ico r.1 r.2)
    ∅
  expanded.sort (· ≤ ·)

/-- The window's right end never leaves the section. -/
theorem expandLoop_end_le (sentences : List Sentence) (thr : Nat) :
    ∀ (fuel range_start range_end combined_len : Nat),
      range_end ≤ sentences.length →
      (expandLoop sentences thr fuel range_start range_end combined_len).2
        ≤ sentences.length := by
  intro fuel
  induction fuel with
  | zero => intro rs re cl h; exact h
  | succ n ih =>
    intro rs re cl h
    rw [expandLoop]
    by_cases hc : thr ≤ cl
    · simpa [hc]
    · rw [if_neg hc]
      dsimp only
      by_cases hrs : 0 < rs
      all_goals
        first
        | (rw [if_pos hrs]; dsimp only
           by_cases hq : cl + sentLen sentences (rs - 1) < thr ∧ re < sentences.length
           · rw [if_pos hq]; dsimp only
             by_cases hb : rs - 1 = 0 ∧ re + 1 = sentences.length
             · rw [if_pos hb]; omega
             · rw [if_neg hb]; exact ih _ _ _ (by omega)
           · rw [if_neg hq]; dsimp only
             by_cases hb : rs - 1 = 0 ∧ re = sentences.length
             · rw [if_pos hb]; omega
             · rw [if_neg hb]; exact ih _ _ _ h)
        | (rw [if_neg hrs]; dsimp only
           by_cases hq : cl < thr ∧ re < sentences.length
           · rw [if_pos hq]; dsimp only
             by_cases hb : rs = 0 ∧ re + 1 = sentences.length
             · rw [if_pos hb]; omega
             · rw [if_neg hb]; exact ih _ _ _ (by omega)
           · rw [if_neg hq]; dsimp only
             by_cases hb : rs = 0 ∧ re = sentences.length
             · rw [if_pos hb]; omega
             · rw [if_neg hb]; exact ih _ _ _ h)

/-- Every step of the fold only grows the accumulated index set. -/
theorem expandFold_mono (sentences : List Sentence) (thr : Nat) :
    ∀ (l : List Nat) (acc : Finset ℕ),
      acc ⊆ l.foldl
        (fun acc idx =>
          if thr ≤ sentLen sentences idx then insert idx acc
          else
            let r := expandLoop sentences thr (sentences.length + 1)
              idx (idx + 1) (sentLen sentences idx)
            acc ∪ Finset.Ico r.1 r.2)
        acc := by
  intro l
  induction l with
  | nil => intro acc; exact Finset.Subset.refl acc
  | cons x xs ih =>
    intro acc
    refine Finset.Subset.trans ?_ (ih _)
    by_cases hx : thr ≤ sentLen sentences x
    · simp only [List.foldl_cons, hx, if_true]
      exact Finset.subset_insert x acc
    · simp only [List.foldl_cons, hx, if_false]
      exact Finset.subset_union_left

/-- Every index accumulated by the fold stays inside the section. -/
theorem expandFold_bounded (sentences : List Sentence) (thr : Nat) :
    ∀ (l : List Nat) (acc : Finset ℕ),
      (∀ i ∈ l, i < sentences.length) →
      (∀ j ∈ acc, j < sentences.length) →
      ∀ j ∈ l.foldl
        (fun acc idx =>
          if thr ≤ sentLen sentences idx then insert idx acc
          else
            let r := expandLoop sentences thr (sentences.length + 1)
              idx (idx + 1) (sentLen sentences idx)
            acc ∪ Finset.Ico r.1 r.2)
        acc, j < sentences.length := by
  intro l
  induction l with
  | nil => intro acc _ hacc j hj; exact hacc j hj
  | cons x xs ih =>
    intro acc hl hacc j hj
    rw [List.foldl_cons] at hj
    refine ih _ (fun i hi => hl i (List.mem_cons_of_mem x hi)) ?_ j hj
    intro k hk
    by_cases hx : thr ≤ sentLen sentences x
    · rw [if_pos hx] at hk
      rcases Finset.mem_insert.mp hk with hk | hk
      · subst hk; exact hl _ (List.mem_cons_self _ _)
      · exact hacc k hk
    · rw [if_neg hx] at hk
      rcases Finset.mem_union.mp hk with hk | hk
      · exact hacc k hk
      · have hend := expandLoop_end_le sentences thr (sentences.length + 1)
          x (x + 1) (sentLen sentences x)
          (by have := hl x (List.mem_cons_self x xs); omega)
        have := (Finset.mem_Ico.mp hk).2
        omega

/-- Long important indices are inserted by the fold. -/
theorem expandFold_mem_of_long (sentences : List Sentence) (thr : Nat) :
    ∀ (l : List Nat) (acc : Finset ℕ) (i : Nat), i ∈ l →
      thr ≤ sentLen sentences i →
      i ∈ l.foldl
        (fun acc idx =>
          if thr ≤ sentLen sentences idx then insert idx acc
          else
            let r := expandLoop sentences thr (sentences.length + 1)
              idx (idx + 1) (sentLen sentences idx)
            acc ∪ Finset.Ico r.1 r.2)
        acc := by
  intro l
  induction l with
  | nil => intro acc i hi; exact absurd hi (List.not_mem_nil i)
  | cons x xs ih =>
    intro acc i hi hlong
    rcases List.mem_cons.mp hi with hi | hi
    · subst hi
      rw [List.foldl_cons, if_pos hlong]
      exact expandFold_mono sentences thr xs _ (Finset.mem_insert_self i acc)
    · rw [List.foldl_cons]
      exact ih _ i hi hlong

/-- C9: for valid important indices, the expanded indices form a
strictly ascending sequence, every element lies inside the section
(`< len(section.sentences)`), and every important index whose sentence
has length ≥ the threshold appears among them. -/
theorem c9_sentence_expander_containment (sentences : List Sentence)
    (important_indices : List Nat) (length_threshold : Nat)
    (hvalid : ∀ i ∈ important_indices, i < sentences.length) :
    List.Sorted (· < ·)
      (expand_section_sentences sentences important_indices length_threshold) ∧
    (∀ j ∈ expand_section_sentences sentences important_indices length_threshold,
      j < sentences.length) ∧
    (∀ i ∈ important_indices, length_threshold ≤ sentLen sentences i →
      i ∈ expand_section_sentences sentences important_indices length_threshold) := by
  refine ⟨Finset.sort_sorted_lt _, ?_, ?_⟩
  · intro j hj
    rw [expand_section_sentences, Finset.mem_sort] at hj
    exact expandFold_bounded sentences length_threshold important_indices ∅
      hvalid (by simp) j hj
  · intro i hi hlong
    rw [expand_section_sentences, Finset.mem_sort]
    exact expandFold_mem_of_long sentences length_threshold important_indices ∅
      i hi hlong

/-- Witness for C9: the spec's expansion scenario — five sentences of
lengths 6, 22, 17, 18, 15, important indices 0 and 3, threshold 50. -/
theorem c9_sentence_expander_containment_witness :
    (∀ i ∈ [0, 3], i <
      ([{ text := "aaaaaa".toList, start_index := 0, end_index := 6 },
        { text := (List.replicate 22 'b'), start_index := 7, end_index := 29 },
        { text := (List.replicate 17 'c'), start_index := 30, end_index := 47 },
        { text := (List.replicate 18 'd'), start_index := 48, end_index := 66 },
        { text := (List.replicate 15 'e'), start_index := 67, end_index := 82 }] :
          List Sentence).length) ∧
    (∀ j ∈ expand_section_sentences
        [{ text := "aaaaaa".toList, start_index := 0, end_index := 6 },
         { text := (List.replicate 22 'b'), start_index := 7, end_index := 29 },
         { text := (List.replicate 17 'c'), start_index := 30, end_index := 47 },
         { text := (List.replicate 18 'd'), start_index := 48, end_index := 66 },
         { text := (List.replicate 15 'e'), start_index := 67, end_index := 82 }]
        [0, 3] 50,
      j < 5) :=
  ⟨by decide,
   (c9_sentence_expander_containment
      [{ text := "aaaaaa".toList, start_index := 0, end_index := 6 },
       { text := (List.replicate 22 'b'), start_index := 7, end_index := 29 },
       { text := (List.replicate 17 'c'), start_index := 30, end_index := 47 },
       { text := (List.replicate 18 'd'), start_index := 48, end_index := 66 },
       { text := (List.replicate 15 'e'), start_index := 67, end_index := 82 }]
      [0, 3] 50 (by decide)).2.1⟩

/-! ### DuplicateChecker (`nlpmed_engine/components/duplicate_checker.py`)

`DuplicateChecker.process` iterates sections and sentences in order,
skips sentences shorter than the length threshold, marks a sentence
duplicate (and records its section-local index) when the LSH query
returns a candidate, and otherwise inserts the sentence's MinHash
signature.  `SinglePipeline.process` clears the LSH, then feeds the
notes through in input order; `duplicateCheckerRun` composes the two.

Modelled from the spec: `MinHash`/`MinHashLSH` come from the external
`datasketch` library (not part of this repository).  Per the spec, a
sentence's MinHash signature is a function of its whitespace-split
tokens, and the LSH returns candidates whose signature similarity
reaches the threshold — in particular, for two sentences with the same
text the signatures are identical and a query after the insert is
guaranteed to return the stored key.  The model keys the LSH by the
token list itself and answers queries by exact signature membership:
the exact-match fragment of LSH, which is the only fragment exercised
when all eligible sentences are pairwise identical (as in the claim).
-/

abbrev Sig := List (List Char)

/-- Python `str.split()` with no arguments: whitespace runs separate
tokens, with no empty tokens. -/
def pySplitWs (t : List Char) : List (List Char) :=
  let step := fun c (acc : List Char × List (List Char)) =>
    if pyIsSpace c then
      if acc.1.isEmpty then ([], acc.2) else ([], acc.1 :: acc.2)
    else (c :: acc.1, acc.2)
  let r := t.foldr step ([], [])
  if r.1.isEmpty then r.2 else r.1 :: r.2

/-- `DuplicateChecker.get_minhash`: the signature of a sentence, as the
function of its whitespace tokens (see the section comment). -/
def get_minhash (s : Sentence) : Sig :=
  pySplitWs s.text

def lshQuery (lsh : List Sig) (m : Sig) : Bool :=
  lsh.contains m

def lshInsert (lsh : List Sig) (m : Sig) : List Sig :=
  lsh ++ [m]

/-- The per-sentence loop of `DuplicateChecker.process` over one
section's sentences, threading the LSH and collecting the section-local
duplicate indices (`idx` is the index of the first sentence of `ss`). -/
def dcProcessSentences (thr : Nat) : List Sig → Nat → List Sentence →
    List Sentence × List Nat × List Sig
  | lsh, _, [] => ([], [], lsh)
  | lsh, idx, s :: rest =>
    if s.text.length < thr then
      let r := dcProcessSentences thr lsh (idx + 1) rest
      (s :: r.1, r.2.1, r.2.2)
    else if lshQuery lsh (get_minhash s) then
      let r := dcProcessSentences thr lsh (idx + 1) rest
      ({ s with is_duplicate := true } :: r.1, idx :: r.2.1, r.2.2)
    else
      let r := dcProcessSentences thr (lshInsert lsh (get_minhash s)) (idx + 1) rest
      (s :: r.1, r.2.1, r.2.2)

def dcProcessSection (thr : Nat) (lsh : List Sig) (sec : Section) :
    Section × List Sig :=
  let r := dcProcessSentences thr lsh 0 sec.sentences
  ({ sec with sentences := r.1, duplicate_indices := r.2.1 }, r.2.2)

def dcProcessSectionList (thr : Nat) : List Sig → List Section →
    List Section × List Sig
  | lsh, [] => ([], lsh)
  | lsh, sec :: rest =>
    let r1 := dcProcessSection thr lsh sec
    let r2 := dcProcessSectionList thr r1.2 rest
    (r1.1 :: r2.1, r2.2)

/-- `DuplicateChecker.process` on one note. -/
def dcProcessNote (thr : Nat) (lsh : List Sig) (note : Note) : Note × List Sig :=
  let r := dcProcessSectionList thr lsh note.sections
  ({ note with sections := r.1 }, r.2)

def dcProcessNoteList (thr : Nat) : List Sig → List Note → List Note × List Sig
  | lsh, [] => ([], lsh)
  | lsh, n :: rest =>
    let r1 := dcProcessNote thr lsh n
    let r2 := dcProcessNoteList thr r1.2 rest
    (r1.1 :: r2.1, r2.2)

/-- The DuplicateChecker pass of a SinglePipeline invocation: the LSH is
cleared, then the notes run through `DuplicateChecker.process` in input
order. -/
def duplicateCheckerRun (thr : Nat) (notes : List Note) : List Note :=
  (dcProcessNoteList thr [] notes).1

/-- The length gate of `DuplicateChecker.process`: a sentence is
eligible when it is not shorter than the threshold. -/
def eligB (thr : Nat) (s : Sentence) : Bool :=
  if s.text.length < thr then false else true

/-- All sentences of all sections of all notes, in processing order:
notes in input order, sections in order, sentences in order. -/
def flatSentences (notes : List Note) : List Sentence :=
  ((notes.map (fun n => (n.sections.map (fun sec => sec.sentences)).flatten)).flatten)

/-- "Exactly the first is kept": when `seen` is false the head of the
list is not marked duplicate and every later element is; when `seen` is
true every element is marked. -/
def FlagSpec : Bool → List Sentence → Prop
  | true, l => ∀ s ∈ l, s.is_duplicate = true
  | false, [] => True
  | false, h :: rest => h.is_duplicate = false ∧ ∀ s ∈ rest, s.is_duplicate = true

theorem lshQuery_iff_mem (L : List Sig) (m : Sig) :
    lshQuery L m = true ↔ m ∈ L := by
  simp [lshQuery]

theorem lshQuery_insert_self (L : List Sig) (m : Sig) :
    lshQuery (lshInsert L m) m = true := by
  simp [lshQuery_iff_mem, lshInsert]

theorem eligB_mark (thr : Nat) (s : Sentence) :
    eligB thr { s with is_duplicate := true } = eligB thr s := rfl

theorem FlagSpec_append {seen : Bool} {a b : List Sentence}
    (ha : FlagSpec seen a) (hb : FlagSpec (seen || !a.isEmpty) b) :
    FlagSpec seen (a ++ b) := by
  cases seen with
  | true =>
    simp only [FlagSpec, Bool.true_or] at *
    intro s hs
    rcases List.mem_append.mp hs with hs | hs
    · exact ha s hs
    · exact hb s hs
  | false =>
    cases a with
    | nil =>
      simpa using hb
    | cons h t =>
      simp only [FlagSpec, Bool.false_or, List.isEmpty_cons, Bool.not_false,
        List.cons_append] at *
      refine ⟨ha.1, ?_⟩
      intro s hs
      rcases List.mem_append.mp hs with hs | hs
      · exact ha.2 s hs
      · exact hb s hs

/-- The per-sentence pass on one section, when every eligible sentence
has text `T` and no sentence is marked duplicate on input: the eligible
outputs satisfy the first-kept/rest-marked discipline relative to
whether `T`'s signature is already in the LSH, the LSH afterwards knows
`T` exactly when it did before or an eligible sentence occurred, and the
collected indices are exactly the positions of eligible output
sentences marked duplicate. -/
theorem dcSent_spec (thr : Nat) (T : List Char) :
    ∀ (ss : List Sentence) (lsh : List Sig) (idx : Nat),
      (∀ s ∈ ss, eligB thr s = true → s.text = T) →
      (∀ s ∈ ss, s.is_duplicate = false) →
      FlagSpec (lshQuery lsh (pySplitWs T))
        ((dcProcessSentences thr lsh idx ss).1.filter (eligB thr)) ∧
      ((dcProcessSentences thr lsh idx ss).1.filter (eligB thr)).isEmpty
          = !(ss.any (eligB thr)) ∧
      lshQuery (dcProcessSentences thr lsh idx ss).2.2 (pySplitWs T)
          = (lshQuery lsh (pySplitWs T) || ss.any (eligB thr)) ∧
      (∀ m ∈ (dcProcessSentences thr lsh idx ss).2.1, idx ≤ m) ∧
      (∀ k : Nat, ((idx + k) ∈ (dcProcessSentences thr lsh idx ss).2.1) ↔
        (∃ s', (dcProcessSentences thr lsh idx ss).1.get? k = some s' ∧
          eligB thr s' = true ∧ s'.is_duplicate = true)) := by
  intro ss
  induction ss with
  | nil =>
    intro lsh idx _ _
    refine ⟨?_, by simp [dcProcessSentences], by simp [dcProcessSentences],
      by simp [dcProcessSentences], ?_⟩
    · cases hseen : lshQuery lsh (pySplitWs T) <;>
        simp [dcProcessSentences, FlagSpec, hseen]
    · intro k
      simp [dcProcessSentences]
  | cons s rest ih =>
    intro lsh idx h_same h_init
    have h_same' : ∀ x ∈ rest, eligB thr x = true → x.text = T :=
      fun x hx => h_same x (List.mem_cons_of_mem s hx)
    have h_init' : ∀ x ∈ rest, x.is_duplicate = false :=
      fun x hx => h_init x (List.mem_cons_of_mem s hx)
    by_cases hlen : s.text.length < thr
    · -- length gate: the sentence is skipped
      have helig : eligB thr s = false := by simp [eligB, hlen]
      have hout : dcProcessSentences thr lsh idx (s :: rest)
          = (s :: (dcProcessSentences thr lsh (idx + 1) rest).1,
             (dcProcessSentences thr lsh (idx + 1) rest).2.1,
             (dcProcessSentences thr lsh (idx + 1) rest).2.2) := by
        simp only [dcProcessSentences, if_pos hlen]
      obtain ⟨ihB, ihN, ihF, ihLB, ihD⟩ := ih lsh (idx + 1) h_same' h_init'
      rw [hout]
      refine ⟨?_, ?_, ?_, ?_, ?_⟩
      · simpa [List.filter_cons, helig] using ihB
      · simpa [List.filter_cons, helig] using ihN
      · simpa [helig] using ihF
      · intro m hm
        have := ihLB m hm
        omega
      · intro k
        cases k with
        | zero =>
          simp only [Nat.add_zero, List.get?_cons_zero]
          constructor
          · intro hmem
            have := ihLB idx hmem
            omega
          · rintro ⟨s', hs', he, _⟩
            cases hs'
            rw [helig] at he
            cases he
        | succ k =>
          have harith : idx + (k + 1) = (idx + 1) + k := by omega
          rw [harith, List.get?_cons_succ]
          exact ihD k
    · -- eligible sentence
      have helig : eligB thr s = true := by simp [eligB, hlen]
      have hsT : s.text = T := h_same s (List.mem_cons_self s rest) helig
      have hmh : get_minhash s = pySplitWs T := by rw [get_minhash, hsT]
      by_cases hq : lshQuery lsh (get_minhash s) = true
      · -- candidate returned: marked duplicate
        have hseen : lshQuery lsh (pySplitWs T) = true := by rw [← hmh]; exact hq
        have hout : dcProcessSentences thr lsh idx (s :: rest)
            = ({ s with is_duplicate := true }
                 :: (dcProcessSentences thr lsh (idx + 1) rest).1,
               idx :: (dcProcessSentences thr lsh (idx + 1) rest).2.1,
               (dcProcessSentences thr lsh (idx + 1) rest).2.2) := by
          simp only [dcProcessSentences, if_neg hlen, if_pos hq]
        obtain ⟨ihB, ihN, ihF, ihLB, ihD⟩ := ih lsh (idx + 1) h_same' h_init'
        rw [hseen] at ihB
        rw [hout]
        refine ⟨?_, ?_, ?_, ?_, ?_⟩
        · rw [hseen]
          simp only [FlagSpec] at ihB ⊢
          intro x hx
          rw [List.filter_cons, eligB_mark, helig, if_pos rfl] at hx
          rcases List.mem_cons.mp hx with hx | hx
          · subst hx; rfl
          · exact ihB x hx
        · simp [List.filter_cons, eligB_mark, helig]
        · simpa [helig, hseen] using ihF
        · intro m hm
          rcases List.mem_cons.mp hm with hm | hm
          · omega
          · have := ihLB m hm
            omega
        · intro k
          cases k with
          | zero =>
            simp only [Nat.add_zero, List.get?_cons_zero]
            constructor
            · intro _
              exact ⟨{ s with is_duplicate := true }, rfl, by rw [eligB_mark]; exact helig, rfl⟩
            · intro _
              exact List.mem_cons_self idx _
          | succ k =>
            have harith : idx + (k + 1) = (idx + 1) + k := by omega
            rw [harith, List.get?_cons_succ]
            rw [List.mem_cons]
            constructor
            · rintro (h | h)
              · omega
              · exact (ihD k).mp h
            · intro h
              exact Or.inr ((ihD k).mpr h)
      · -- no candidate: inserted, stays unmarked
        have hseen : lshQuery lsh (pySplitWs T) = false := by
          rw [← hmh]
          exact Bool.not_eq_true _ ▸ Bool.of_not_eq_true hq
        have hout : dcProcessSentences thr lsh idx (s :: rest)
            = (s :: (dcProcessSentences thr (lshInsert lsh (get_minhash s)) (idx + 1) rest).1,
               (dcProcessSentences thr (lshInsert lsh (get_minhash s)) (idx + 1) rest).2.1,
               (dcProcessSentences thr (lshInsert lsh (get_minhash s)) (idx + 1) rest).2.2) := by
          simp only [dcProcessSentences, if_neg hlen, if_neg hq]
        have hseen' : lshQuery (lshInsert lsh (get_minhash s)) (pySplitWs T) = true := by
          rw [← hmh]
          exact lshQuery_insert_self lsh (get_minhash s)
        obtain ⟨ihB, ihN, ihF, ihLB, ihD⟩ :=
          ih (lshInsert lsh (get_minhash s)) (idx + 1) h_same' h_init'
        rw [hseen'] at ihB
        rw [hout]
        refine ⟨?_, ?_, ?_, ?_, ?_⟩
        · rw [hseen]
          rw [List.filter_cons, helig, if_pos rfl]
          simp only [FlagSpec] at ihB ⊢
          exact ⟨h_init s (List.mem_cons_self s rest), fun x hx => ihB x hx⟩
        · simp [List.filter_cons, helig]
        · rw [ihF, hseen', hseen]
          simp [helig]
        · intro m hm
          have := ihLB m hm
          omega
        · intro k
          cases k with
          | zero =>
            simp only [Nat.add_zero, List.get?_cons_zero]
            constructor
            · intro hmem
              have := ihLB idx hmem
              omega
            · rintro ⟨s', hs', _, hdup⟩
              cases hs'
              rw [h_init s (List.mem_cons_self s rest)] at hdup
              cases hdup
          | succ k =>
            have harith : idx + (k + 1) = (idx + 1) + k := by omega
            rw [harith, List.get?_cons_succ]
            exact ihD k

theorem isEmpty_append_sent (a b : List Sentence) :
    (a ++ b).isEmpty = (a.isEmpty && b.isEmpty) := by
  cases a <;> simp [List.isEmpty]

/-- Lift of `dcSent_spec` over one note's section list, threading the
LSH from section to section. -/
theorem dcSecList_spec (thr : Nat) (T : List Char) :
    ∀ (secs : List Section) (lsh : List Sig),
      (∀ sec ∈ secs, ∀ s ∈ sec.sentences, eligB thr s = true → s.text = T) →
      (∀ sec ∈ secs, ∀ s ∈ sec.sentences, s.is_duplicate = false) →
      FlagSpec (lshQuery lsh (pySplitWs T))
        ((((dcProcessSectionList thr lsh secs).1.map
            (fun sec => sec.sentences)).flatten).filter (eligB thr)) ∧
      ((((dcProcessSectionList thr lsh secs).1.map
          (fun sec => sec.sentences)).flatten).filter (eligB thr)).isEmpty
        = !(secs.any (fun sec => sec.sentences.any (eligB thr))) ∧
      lshQuery (dcProcessSectionList thr lsh secs).2 (pySplitWs T)
        = (lshQuery lsh (pySplitWs T)
            || secs.any (fun sec => sec.sentences.any (eligB thr))) ∧
      (∀ sec' ∈ (dcProcessSectionList thr lsh secs).1, ∀ k : Nat,
        (k ∈ sec'.duplicate_indices) ↔
        (∃ s', sec'.sentences.get? k = some s' ∧ eligB thr s' = true ∧
          s'.is_duplicate = true)) := by
  intro secs
  induction secs with
  | nil =>
    intro lsh _ _
    refine ⟨?_, by simp [dcProcessSectionList], by simp [dcProcessSectionList], ?_⟩
    · cases hseen : lshQuery lsh (pySplitWs T) <;>
        simp [dcProcessSectionList, FlagSpec, hseen]
    · intro sec' hsec'
      simp [dcProcessSectionList] at hsec'
  | cons sec rest ih =>
    intro lsh h_same h_init
    have hsame0 : ∀ s ∈ sec.sentences, eligB thr s = true → s.text = T :=
      h_same sec (List.mem_cons_self sec rest)
    have hinit0 : ∀ s ∈ sec.sentences, s.is_duplicate = false :=
      h_init sec (List.mem_cons_self sec rest)
    obtain ⟨sB, sN, sF, _, sD⟩ := dcSent_spec thr T sec.sentences lsh 0 hsame0 hinit0
    have h_same' : ∀ x ∈ rest, ∀ s ∈ x.sentences, eligB thr s = true → s.text = T :=
      fun x hx => h_same x (List.mem_cons_of_mem sec hx)
    have h_init' : ∀ x ∈ rest, ∀ s ∈ x.sentences, s.is_duplicate = false :=
      fun x hx => h_init x (List.mem_cons_of_mem sec hx)
    obtain ⟨iB, iN, iF, iD⟩ :=
      ih (dcProcessSentences thr lsh 0 sec.sentences).2.2 h_same' h_init'
    have hout : dcProcessSectionList thr lsh (sec :: rest)
        = ((dcProcessSection thr lsh sec).1
             :: (dcProcessSectionList thr (dcProcessSentences thr lsh 0 sec.sentences).2.2 rest).1,
           (dcProcessSectionList thr (dcProcessSentences thr lsh 0 sec.sentences).2.2 rest).2) := by
      simp only [dcProcessSectionList, dcProcessSection]
    rw [hout]
    have hsecflat :
        ((((dcProcessSection thr lsh sec).1
            :: (dcProcessSectionList thr (dcProcessSentences thr lsh 0 sec.sentences).2.2 rest).1).map
              (fun s => s.sentences)).flatten).filter (eligB thr)
        = (dcProcessSentences thr lsh 0 sec.sentences).1.filter (eligB thr)
            ++ ((((dcProcessSectionList thr (dcProcessSentences thr lsh 0 sec.sentences).2.2 rest).1.map
                (fun s => s.sentences)).flatten).filter (eligB thr)) := by
      simp [dcProcessSection, List.filter_append]
    refine ⟨?_, ?_, ?_, ?_⟩
    · rw [hsecflat]
      refine FlagSpec_append sB ?_
      have hne : (!((dcProcessSentences thr lsh 0 sec.sentences).1.filter (eligB thr)).isEmpty)
          = sec.sentences.any (eligB thr) := by
        rw [sN, Bool.not_not]
      rw [hne]
      rw [sF] at iB
      exact iB
    · rw [hsecflat]
      rw [isEmpty_append_sent, sN, iN, List.any_cons]
      cases sec.sentences.any (eligB thr) <;>
        cases rest.any (fun x => x.sentences.any (eligB thr)) <;> rfl
    · simp only [iF, sF, List.any_cons, Bool.or_assoc]
    · intro sec' hsec' k
      rcases List.mem_cons.mp hsec' with hsec' | hsec'
      · subst hsec'
        simp only [dcProcessSection]
        have := sD k
        simpa using this
      · exact iD sec' hsec' k

/-- Lift over the note list of one pipeline invocation. -/
theorem dcNoteList_spec (thr : Nat) (T : List Char) :
    ∀ (notes : List Note) (lsh : List Sig),
      (∀ n ∈ notes, ∀ sec ∈ n.sections, ∀ s ∈ sec.sentences,
        eligB thr s = true → s.text = T) →
      (∀ n ∈ notes, ∀ sec ∈ n.sections, ∀ s ∈ sec.sentences,
        s.is_duplicate = false) →
      FlagSpec (lshQuery lsh (pySplitWs T))
        ((flatSentences (dcProcessNoteList thr lsh notes).1).filter (eligB thr)) ∧
      lshQuery (dcProcessNoteList thr lsh notes).2 (pySplitWs T)
        = (lshQuery lsh (pySplitWs T)
            || notes.any (fun n => n.sections.any (fun sec => sec.sentences.any (eligB thr)))) ∧
      ((flatSentences (dcProcessNoteList thr lsh notes).1).filter (eligB thr)).isEmpty
        = !(notes.any (fun n => n.sections.any (fun sec => sec.sentences.any (eligB thr)))) ∧
      (∀ n' ∈ (dcProcessNoteList thr lsh notes).1, ∀ sec' ∈ n'.sections, ∀ k : Nat,
        (k ∈ sec'.duplicate_indices) ↔
        (∃ s', sec'.sentences.get? k = some s' ∧ eligB thr s' = true ∧
          s'.is_duplicate = true)) := by
  intro notes
  induction notes with
  | nil =>
    intro lsh _ _
    refine ⟨?_, by simp [dcProcessNoteList], by simp [dcProcessNoteList, flatSentences], ?_⟩
    · cases hseen : lshQuery lsh (pySplitWs T) <;>
        simp [dcProcessNoteList, flatSentences, FlagSpec, hseen]
    · intro n' hn'
      simp [dcProcessNoteList] at hn'
  | cons n rest ih =>
    intro lsh h_same h_init
    have hsame0 : ∀ sec ∈ n.sections, ∀ s ∈ sec.sentences, eligB thr s = true → s.text = T :=
      h_same n (List.mem_cons_self n rest)
    have hinit0 : ∀ sec ∈ n.sections, ∀ s ∈ sec.sentences, s.is_duplicate = false :=
      h_init n (List.mem_cons_self n rest)
    obtain ⟨sB, sN, sF, sD⟩ := dcSecList_spec thr T n.sections lsh hsame0 hinit0
    have h_same' := fun x hx => h_same x (List.mem_cons_of_mem n hx)
    have h_init' := fun x hx => h_init x (List.mem_cons_of_mem n hx)
    obtain ⟨iB, iF, iN, iD⟩ :=
      ih (dcProcessSectionList thr lsh n.sections).2 h_same' h_init'
    have hout : dcProcessNoteList thr lsh (n :: rest)
        = ((dcProcessNote thr lsh n).1
             :: (dcProcessNoteList thr (dcProcessSectionList thr lsh n.sections).2 rest).1,
           (dcProcessNoteList thr (dcProcessSectionList thr lsh n.sections).2 rest).2) := by
      simp only [dcProcessNoteList, dcProcessNote]
    rw [hout]
    have hflat :
        (flatSentences ((dcProcessNote thr lsh n).1
            :: (dcProcessNoteList thr (dcProcessSectionList thr lsh n.sections).2 rest).1)).filter (eligB thr)
        = (((dcProcessSectionList thr lsh n.sections).1.map
              (fun sec => sec.sentences)).flatten).filter (eligB thr)
            ++ ((flatSentences
                (dcProcessNoteList thr (dcProcessSectionList thr lsh n.sections).2 rest).1).filter (eligB thr)) := by
      simp [flatSentences, dcProcessNote, List.filter_append]
    refine ⟨?_, ?_, ?_, ?_⟩
    · rw [hflat]
      refine FlagSpec_append sB ?_
      have hne : (!((((dcProcessSectionList thr lsh n.sections).1.map
            (fun sec => sec.sentences)).flatten).filter (eligB thr)).isEmpty)
          = n.sections.any (fun sec => sec.sentences.any (eligB thr)) := by
        rw [sN, Bool.not_not]
      rw [hne]
      rw [sF] at iB
      exact iB
    · simp only [iF, sF, List.any_cons, Bool.or_assoc]
    · rw [hflat]
      rw [isEmpty_append_sent, sN, iN, List.any_cons]
      cases n.sections.any (fun sec => sec.sentences.any (eligB thr)) <;>
        cases rest.any (fun x => x.sections.any (fun sec => sec.sentences.any (eligB thr))) <;> rfl
    · intro n' hn' sec' hsec' k
      rcases List.mem_cons.mp hn' with hn' | hn'
      · subst hn'
        simp only [dcProcessNote] at hsec'
        exact sD sec' hsec' k
      · exact iD n' hn' sec' hsec' k

/-- C2: in a pipeline invocation with DuplicateChecker enabled (the LSH
cleared at the start), when all sentences of length ≥ the threshold are
pairwise identical (same text `T`) and no sentence starts out marked,
then among eligible sentences, in processing order (notes in input
order, sections in order, sentences in order), exactly the first ends
with `is_duplicate = false` and every later one ends with
`is_duplicate = true`; and a section-local index is in a section's
`duplicate_indices` exactly when that sentence is eligible and ended
marked duplicate. -/
theorem c2_duplicate_checker_first_kept (thr : Nat) (T : List Char)
    (notes : List Note)
    (h_same : ∀ n ∈ notes, ∀ sec ∈ n.sections, ∀ s ∈ sec.sentences,
      eligB thr s = true → s.text = T)
    (h_init : ∀ n ∈ notes, ∀ sec ∈ n.sections, ∀ s ∈ sec.sentences,
      s.is_duplicate = false) :
    FlagSpec false
      ((flatSentences (duplicateCheckerRun thr notes)).filter (eligB thr)) ∧
    (∀ n' ∈ duplicateCheckerRun thr notes, ∀ sec' ∈ n'.sections, ∀ k : Nat,
      (k ∈ sec'.duplicate_indices) ↔
      (∃ s', sec'.sentences.get? k = some s' ∧ eligB thr s' = true ∧
        s'.is_duplicate = true)) := by
  obtain ⟨hB, _, _, hD⟩ := dcNoteList_spec thr T notes [] h_same h_init
  have hempty : lshQuery [] (pySplitWs T) = false := rfl
  rw [hempty] at hB
  exact ⟨hB, hD⟩

def c2Text : List Char :=
  ("The patient was diagnosed with a pulmonary embolism and started on anticoagulation.").toList

def c2Sentence : Sentence :=
  { text := c2Text, start_index := 0, end_index := 83 }

def c2Notes : List Note :=
  [{ text := c2Text,
     sections := [{ text := c2Text, start_index := 0, end_index := 83,
                    sentences := [c2Sentence] }] },
   { text := c2Text,
     sections := [{ text := c2Text, start_index := 0, end_index := 83,
                    sentences := [c2Sentence] }] }]

/-- Witness for C2: two notes, each with one identical 83-character
sentence, threshold 50 — the first stays unmarked, the second is marked
and indexed. -/
theorem c2_duplicate_checker_first_kept_witness :
    (∀ n ∈ c2Notes, ∀ sec ∈ n.sections, ∀ s ∈ sec.sentences,
      eligB 50 s = true → s.text = c2Text) ∧
    (∀ n ∈ c2Notes, ∀ sec ∈ n.sections, ∀ s ∈ sec.sentences,
      s.is_duplicate = false) ∧
    FlagSpec false
      ((flatSentences (duplicateCheckerRun 50 c2Notes)).filter (eligB 50)) :=
  ⟨by decide, by decide,
   (c2_duplicate_checker_first_kept 50 c2Text c2Notes (by decide) (by decide)).1⟩

end NLPMed
